import Mathlib

/-!
# infrago/cache-file : the file-backed cache connector

A shallow embedding of `src/cache.go` and a verification of its behaviour.

* Go `[]byte` values are lists of bytes (`Fin 256`); a nil slice is `none`.
* Go `string`s are Lean `String`s (Go strings holding valid UTF-8).
* Go `int64` is `Int` with explicit wrap-around (`wrap64`).
* The connector's `*buntdb.DB` handle is `Option DB`: `none` is the nil pointer, and the
  state of the store lives in the `DB` value, threaded through every operation.
* The standard library (`encoding/base64`, `strconv`, `fmt`) and the storage engine
  (`github.com/tidwall/buntdb`, with its glob matcher `tidwall/match`) are not part of the
  repository; they are embedded here by their documented behaviour, section by section.
-/

namespace CacheFile

/-! ## Errors -/

/-- The error values the connector can return. `invalidCacheConnection` and `emptyData` are the
two package variables of `cache.go`; `connectFailed` is the `errors.New` value built in `Clear` and
`Keys`; `invalidStore` the one built in `Open`; `notFound` and `databaseClosed` are
`buntdb.ErrNotFound` and `buntdb.ErrDatabaseClosed`; `corruptInput` is `base64.CorruptInputError`
(its byte offset is not recorded). -/
inductive Err where
  | invalidCacheConnection
  | emptyData
  | connectFailed
  | invalidStore
  | notFound
  | databaseClosed
  | corruptInput
  deriving DecidableEq, Repr

deriving instance DecidableEq for Except

/-- A Go byte. -/
abbrev Byte := Fin 256

/-! ## encoding/base64, `StdEncoding` -/

/-- The alphabet of `base64.StdEncoding`. -/
def encodeStd : List Char :=
  "ABCDEFGHIJKLMNOPQRSTUVWXYZabcdefghijklmnopqrstuvwxyz0123456789+/".data

/-- The table `enc.encode[i]`. -/
def encChar (i : Nat) : Char := encodeStd.getD i 'A'

/-- The table `enc.decodeMap[c]`; `none` stands for the entry `0xff`. -/
def decodeMap (c : Char) : Option Nat :=
  if encodeStd.indexOf c < 64 then some (encodeStd.indexOf c) else none

/-- `Encoding.Encode` followed by the conversion to a string: three source bytes give four
characters, a remainder of one or two bytes is padded with `=`. The shifts and ors of the source
act on disjoint bit fields and are written with `*`, `+`, `/` and `%`. -/
def encodeChars : List Byte → List Char
  | a :: b :: c :: rest =>
    encChar ((a.val * 65536 + b.val * 256 + c.val) / 262144 % 64) ::
    encChar ((a.val * 65536 + b.val * 256 + c.val) / 4096 % 64) ::
    encChar ((a.val * 65536 + b.val * 256 + c.val) / 64 % 64) ::
    encChar ((a.val * 65536 + b.val * 256 + c.val) % 64) :: encodeChars rest
  | [a, b] =>
    [encChar ((a.val * 65536 + b.val * 256) / 262144 % 64),
     encChar ((a.val * 65536 + b.val * 256) / 4096 % 64),
     encChar ((a.val * 65536 + b.val * 256) / 64 % 64), '=']
  | [a] =>
    [encChar ((a.val * 65536) / 262144 % 64), encChar ((a.val * 65536) / 4096 % 64), '=', '=']
  | [] => []

/-- `base64.StdEncoding.EncodeToString`. -/
def EncodeToString (data : List Byte) : String := String.mk (encodeChars data)

/-- The loop of `decodeQuantum` that skips over `\n` and `\r`. -/
def skipNewlines : List Char → List Char
  | c :: cs => if c = '\n' ∨ c = '\r' then skipNewlines cs else c :: cs
  | [] => []

/-- The bytes of one quantum: `dlen` sextets (the missing ones are 0) give `dlen - 1` bytes. -/
def quantumBytes (d0 d1 d2 d3 dlen : Nat) : List Byte :=
  ([Fin.ofNat ((d0 * 262144 + d1 * 4096 + d2 * 64 + d3) / 65536),
    Fin.ofNat ((d0 * 262144 + d1 * 4096 + d2 * 64 + d3) / 256),
    Fin.ofNat (d0 * 262144 + d1 * 4096 + d2 * 64 + d3)] : List Byte).take (dlen - 1)

/-- `Encoding.Decode` for the padded, non-strict standard encoding: the repetition of
`decodeQuantum` over the input. `buf` holds the sextets already read for the current quantum
(`j = buf.length`), `out` the bytes decoded so far. Newlines are skipped, a character outside the
alphabet other than the padding is corrupt, the input may not end inside a quantum, padding is
accepted only after two or three sextets, and nothing but newlines may follow the padding. -/
def decodeLoop : List Char → List Nat → List Byte → Except Err (List Byte)
  | [], buf, out => if buf = [] then .ok out else .error .corruptInput
  | c :: cs, buf, out =>
    match decodeMap c with
    | some v =>
      match buf with
      | [d0, d1, d2] => decodeLoop cs [] (out ++ quantumBytes d0 d1 d2 v 4)
      | _ => decodeLoop cs (buf ++ [v]) out
    | none =>
      if c = '\n' ∨ c = '\r' then decodeLoop cs buf out
      else if c ≠ '=' then .error .corruptInput
      else
        match buf with
        | [d0, d1] =>
          match skipNewlines cs with
          | [] => .error .corruptInput
          | c2 :: cs2 =>
            if c2 ≠ '=' then .error .corruptInput
            else if skipNewlines cs2 = [] then .ok (out ++ quantumBytes d0 d1 0 0 2)
            else .error .corruptInput
        | [d0, d1, d2] =>
          if skipNewlines cs = [] then .ok (out ++ quantumBytes d0 d1 d2 0 3)
          else .error .corruptInput
        | _ => .error .corruptInput

/-- `base64.StdEncoding.DecodeString`. On an error Go also returns the bytes decoded before it;
the embedding keeps the error only. -/
def DecodeString (s : String) : Except Err (List Byte) := decodeLoop s.data [] []

/-! ## fmt and strconv -/

/-- Go `int64` arithmetic: the result of an addition is reduced to the range `[-2^63, 2^63)`. -/
def wrap64 (x : Int) : Int := (x + 9223372036854775808) % 18446744073709551616 - 9223372036854775808

/-- The base 10 loop of `fmt.fmtInteger`: while `u >= 10` the last digit is put in front of the
buffer and `u` is divided by 10, then the leading digit is put in front. `fuel` bounds the number
of digits; a 64-bit `u` has at most 20. -/
def formatDigits : Nat → Nat → List Byte → List Byte
  | 0, _, acc => acc
  | fuel + 1, u, acc =>
    if u < 10 then Fin.ofNat (48 + u) :: acc
    else formatDigits fuel (u / 10) (Fin.ofNat (48 + u % 10) :: acc)

/-- The bytes of `fmt.Sprintf("%v", value)` for an `int64` value: the decimal digits of the
magnitude, after a `-` for a negative value. -/
def formatInt (value : Int) : List Byte :=
  if value < 0 then 45 :: formatDigits 20 value.natAbs [] else formatDigits 20 value.natAbs []

/-- The loop of `strconv.ParseUint(s, 10, 64)`: every byte must be a decimal digit, and the value
may not pass `2^64 - 1`. `none` is an error (syntax or range). -/
def parseUintLoop : List Byte → Nat → Option Nat
  | [], n => some n
  | c :: cs, n =>
    if 48 ≤ c.val ∧ c.val ≤ 57 then
      if n ≥ 1844674407370955162 then none
      else if n * 10 + (c.val - 48) > 18446744073709551615 then none
      else parseUintLoop cs (n * 10 + (c.val - 48))
    else none

/-- `strconv.ParseUint(s, 10, 64)`; the empty string is a syntax error. -/
def ParseUint (s : List Byte) : Option Nat :=
  if s = [] then none else parseUintLoop s 0

/-- `strconv.ParseInt(s, 10, 64)`: an optional sign, then `ParseUint`, then the range check
against `2^63`. `none` is an error, which is all `Sequence` looks at. -/
def ParseInt (s : List Byte) : Option Int :=
  match s with
  | [] => none
  | c :: cs =>
    match ParseUint (if c.val = 43 ∨ c.val = 45 then cs else c :: cs) with
    | none => none
    | some un =>
      if c.val ≠ 45 ∧ un ≥ 9223372036854775808 then none
      else if c.val = 45 ∧ un > 9223372036854775808 then none
      else some (if c.val = 45 then -(un : Int) else (un : Int))

/-- A byte list that starts with a decimal digit. -/
def StartsWithDigit (l : List Byte) : Prop :=
  ∃ d rest, l = d :: rest ∧ 48 ≤ d.val ∧ d.val ≤ 57

/-! ## tidwall/match -/

/-- The `*` of a pattern: the rest of the pattern, `f`, is tried on every suffix of the string. -/
def starMatch (f : List Char → Bool) : List Char → Bool
  | [] => f []
  | c :: s => f (c :: s) || starMatch f s

/-- Glob matching of `match.Match`, pattern first: `*` matches any sequence of characters, `?`
any single character, `\` followed by `c` the character `c`, and any other character itself.
A pattern that ends in a lone `\` matches nothing. -/
def matchChars : List Char → List Char → Bool
  | [], s => s.isEmpty
  | c :: p, s =>
    if c = '*' then starMatch (matchChars p) s
    else if c = '?' then
      match s with
      | [] => false
      | _ :: s' => matchChars p s'
    else if c = '\\' then
      match p with
      | [] => false
      | e :: p' =>
        match s with
        | [] => false
        | d :: s' => decide (d = e) && matchChars p' s'
    else
      match s with
      | [] => false
      | d :: s' => decide (d = c) && matchChars p s'

/-- `match.Match(str, pattern)`. -/
def Match (str pattern : String) : Bool := matchChars pattern.data str.data

/-- The rune `utf8.RuneError`, U+FFFD. -/
def runeError : Char := Char.ofNat 0xFFFD

/-- The rune `utf8.MaxRune`, U+10FFFF. -/
def maxRune : Char := Char.ofNat 0x10FFFF

/-- The rune after `r` as `Allowable` writes it: `r + 1` through `utf8.EncodeRune`, which writes
`utf8.RuneError` for a surrogate. -/
def nextRune (r : Char) : Char :=
  if r.toNat + 1 = 0xD800 then runeError else Char.ofNat (r.toNat + 1)

/-- The loop of `match.Allowable` up to the first `*`: a `?` puts the byte 0 in `min` and the
bytes of `utf8.MaxRune` in `max`, any other character (a `\` too) goes into both. The third
component is `wild`: the loop ended at a `*`. -/
def allowableLoop : List Char → List Char × List Char × Bool
  | [] => ([], [], false)
  | c :: p =>
    if c = '*' then ([], [], true)
    else if c = '?' then
      (Char.ofNat 0 :: (allowableLoop p).1, maxRune :: (allowableLoop p).2.1, (allowableLoop p).2.2)
    else (c :: (allowableLoop p).1, c :: (allowableLoop p).2.1, (allowableLoop p).2.2)

/-- The end of `match.Allowable` for a wild pattern: the last rune of `max`, as
`utf8.DecodeLastRune` reads it, is replaced by the next rune, unless it is `utf8.RuneError`
(U+FFFD decodes to the same value as an error) or `utf8.MaxRune`, or `max` is empty. -/
def bumpLast (mx : List Char) : List Char :=
  match mx.getLast? with
  | none => mx
  | some r => if r ≠ runeError ∧ r.toNat < 0x10FFFF then mx.dropLast ++ [nextRune r] else mx

/-- `match.Allowable(pattern)`: the least and the greatest string the pattern can match, as far
as the function works them out. -/
def Allowable (pattern : String) : String × String :=
  match pattern.data with
  | [] => ("", "")
  | c :: _ =>
    if c = '*' then ("", "")
    else
      (String.mk (allowableLoop pattern.data).1,
        String.mk (if (allowableLoop pattern.data).2.2 then bumpLast (allowableLoop pattern.data).2.1
          else (allowableLoop pattern.data).2.1))

/-! ## tidwall/buntdb

The engine is embedded by the contract of the calls the connector makes: `View`, `Update`,
`Get`, `Set`, `Delete` and `AscendKeys`. Input and output errors of the file behind the
store are outside the embedding. -/

/-- An item of the store: key, value, and the instant it expires at (`opts.exat`), `none` for an
item that does not expire. -/
structure dbItem where
  key : String
  val : String
  exat : Option Int
  deriving DecidableEq, Repr

/-- The state of a store: the items of the key tree in ascending key order, whether `Close` was
called on it, and the reading of the clock (`time.Now()`, in nanoseconds). -/
structure DB where
  keys : List dbItem
  closed : Bool
  now : Int
  deriving DecidableEq, Repr

/-- The order of the key tree: Go compares strings byte by byte, which for valid UTF-8 is the
lexicographic order of the code points. -/
def keyLess (a b : String) : Prop := a.data < b.data

/-- The key tree is well formed when its keys are strictly ascending. -/
def DB.WF (db : DB) : Prop := (db.keys.map dbItem.key).Pairwise keyLess

/-- Time passing: the clock moves forward by `d`. -/
def DB.advance (db : DB) (d : Nat) : DB := { db with now := db.now + d }

/-- `dbItem.expired`: the item expires and the clock is after its expiry instant. -/
def dbItem.expired (dbi : dbItem) (now : Int) : Bool :=
  match dbi.exat with
  | none => false
  | some t => decide (now > t)

/-- Lookup in the key tree. -/
def findItem (key : String) : List dbItem → Option dbItem
  | [] => none
  | x :: xs => if x.key = key then some x else findItem key xs

/-- Insertion into the key tree: the item replaces the one with its key, or goes in its place in
the order. -/
def insertItem (it : dbItem) : List dbItem → List dbItem
  | [] => [it]
  | x :: xs =>
    if it.key.data < x.key.data then it :: x :: xs
    else if it.key = x.key then it :: xs
    else x :: insertItem it xs

/-- Removal of the item with the given key from the key tree. -/
def deleteItem (key : String) : List dbItem → List dbItem
  | [] => []
  | x :: xs => if x.key = key then xs else x :: deleteItem key xs

/-- `tx.Get(key)`: the value of the item, `ErrNotFound` when there is no item or it has expired. -/
def DB.Get (tx : DB) (key : String) : Except Err String :=
  match findItem key tx.keys with
  | none => .error .notFound
  | some dbi => if dbi.expired tx.now then .error .notFound else .ok dbi.val

/-- `tx.Set(key, value, opts)`: `ttl` is `some d` for `opts.Expires` with `opts.TTL = d`; the item
then expires at `time.Now().Add(d)`. The previous value that `Set` also returns is dropped by
its one caller. -/
def DB.Set (tx : DB) (key value : String) (ttl : Option Int) : DB :=
  { tx with keys := insertItem ⟨key, value, ttl.map (tx.now + ·)⟩ tx.keys }

/-- `tx.Delete(key)`: removes the item; `ErrNotFound` when there is no item or it has expired
(the transaction is then rolled back by `Update`, so the tree is as it was). -/
def DB.Delete (tx : DB) (key : String) : Except Err DB :=
  match findItem key tx.keys with
  | none => .error .notFound
  | some dbi =>
    if dbi.expired tx.now then .error .notFound
    else .ok { tx with keys := deleteItem key tx.keys }

/-- The key `a` sorts before the key `b` (a `Bool`, for the scans). -/
def keyBefore (a b : String) : Bool := decide (a.data < b.data)

/-- `tx.AscendKeys(pattern, iterator)` with an iterator that always returns true: the keys the
iterator is called on, in the order of the calls. An empty pattern iterates nothing; the pattern
`*` iterates every key; another pattern that starts with `*` iterates the keys that match. Any
other pattern scans the tree from the first key that is not before `min` (`AscendGreaterOrEqual`),
stops at the first key after `max`, with `min` and `max` from `match.Allowable`, and iterates the
scanned keys that match. The scan does not look at expiry, so an expired item that is still in
the tree is iterated. -/
def DB.AscendKeys (tx : DB) (pattern : String) : List String :=
  match pattern.data with
  | [] => []
  | c :: _ =>
    if c = '*' then
      if pattern = "*" then tx.keys.map dbItem.key
      else (tx.keys.map dbItem.key).filter (fun k => Match k pattern)
    else
      ((((tx.keys.map dbItem.key).dropWhile (fun k => keyBefore k (Allowable pattern).1)).takeWhile
        (fun k => !keyBefore (Allowable pattern).2 k))).filter (fun k => Match k pattern)

/-- `db.View(fn)`: a read transaction; fails with `ErrDatabaseClosed` on a closed store. -/
def DB.View {α : Type} (db : DB) (fn : DB → Except Err α) : Except Err α :=
  if db.closed then .error .databaseClosed else fn db

/-- `db.Update(fn)`: a write transaction; fails with `ErrDatabaseClosed` on a closed store, is
rolled back when `fn` returns an error and committed otherwise. -/
def DB.Update (db : DB) (fn : DB → Except Err DB) : DB × Option Err :=
  if db.closed then (db, some .databaseClosed)
  else
    match fn db with
    | .error e => (db, some e)
    | .ok tx => (tx, none)

/-- `db.Close()`. -/
def DB.Close (db : DB) : DB × Option Err :=
  if db.closed then (db, some .databaseClosed) else ({ db with closed := true }, none)

/-! ## cache.go -/

/-- The `fileSetting` struct. -/
structure fileSetting where
  Store : String
  deriving DecidableEq, Repr

/-- The `fileConnect` struct: the setting and the store handle, `none` for the nil pointer. The
`mutex` field is never used and `instance` is only kept, so both are left out. -/
structure fileConnect where
  setting : fileSetting
  db : Option DB
  deriving DecidableEq, Repr

/-- `fileConnect.Open`; `open_` stands for `buntdb.Open`, which reads the file at the path. -/
def fileConnect.Open (this : fileConnect) (open_ : String → Except Err DB) :
    fileConnect × Option Err :=
  if this.setting.Store = "" then (this, some .invalidStore)
  else
    match open_ this.setting.Store with
    | .error err => (this, some err)
    | .ok db => ({ this with db := some db }, none)

/-- `fileConnect.Close`. -/
def fileConnect.Close (this : fileConnect) : fileConnect × Option Err :=
  match this.db with
  | none => (this, none)
  | some db =>
    match db.Close with
    | (db', some err) => ({ this with db := some db' }, some err)
    | (db', none) => ({ this with db := some db' }, none)

/-- `fileConnect.Read`. The result `none` is the nil slice. -/
def fileConnect.Read (this : fileConnect) (key : String) : Except Err (Option (List Byte)) :=
  match this.db with
  | none => .error .invalidCacheConnection
  | some db =>
    match db.View (fun tx => tx.Get key) with
    | .error err => if err = .notFound then .ok none else .error err
    | .ok value =>
      match DecodeString value with
      | .error err => .error err
      | .ok data => .ok (some data)

/-- `fileConnect.Write`. -/
def fileConnect.Write (this : fileConnect) (key : String) (data : List Byte) (expire : Int) :
    fileConnect × Option Err :=
  match this.db with
  | none => (this, some .invalidCacheConnection)
  | some db =>
    if EncodeToString data = "" then (this, some .emptyData)
    else
      match db.Update (fun tx =>
          .ok (tx.Set key (EncodeToString data) (if expire > 0 then some expire else none))) with
      | (db', err) => ({ this with db := some db' }, err)

/-- `fileConnect.Exists`. -/
def fileConnect.Exists (this : fileConnect) (key : String) : Except Err Bool :=
  match this.db with
  | none => .error .invalidCacheConnection
  | some db =>
    match db.View (fun tx => tx.Get key) with
    | .error err => if err = .notFound then .ok true else .ok false
    | .ok _ => .ok false

/-- `fileConnect.Delete`. -/
def fileConnect.Delete (this : fileConnect) (key : String) : fileConnect × Option Err :=
  match this.db with
  | none => (this, some .invalidCacheConnection)
  | some db =>
    match db.Update (fun tx => tx.Delete key) with
    | (db', err) => ({ this with db := some db' }, err)

/-- The conversion `string(data)` of a byte slice; the nil slice gives the empty string. -/
def bytesOf (data : Option (List Byte)) : List Byte := data.getD []

/-- `fileConnect.Sequence`. -/
def fileConnect.Sequence (this : fileConnect) (key : String) (start step expire : Int) :
    fileConnect × Except Err Int :=
  let value :=
    match this.Read key with
    | .ok data =>
      match ParseInt (bytesOf data) with
      | some num => num
      | none => start
    | .error _ => start
  let value := wrap64 (value + step)
  match this.Write key (formatInt value) expire with
  | (this', some err) => (this', .error err)
  | (this', none) => (this', .ok value)

/-- `fileConnect.Keys`. -/
def fileConnect.Keys (this : fileConnect) (pfx : String) : Except Err (List String) :=
  match this.db with
  | none => .error .connectFailed
  | some db => db.View (fun tx => .ok (tx.AscendKeys (pfx ++ "*")))

/-- The loop of `Clear` inside its write transaction: the keys are deleted in turn, and the first
error ends the loop. -/
def deleteKeys : List String → DB → Except Err DB
  | [], tx => .ok tx
  | key :: keys, tx =>
    match tx.Delete key with
    | .error err => .error err
    | .ok tx' => deleteKeys keys tx'

/-- `fileConnect.Clear`. -/
def fileConnect.Clear (this : fileConnect) (pfx : String) : fileConnect × Option Err :=
  match this.db with
  | none => (this, some .connectFailed)
  | some db =>
    match this.Keys pfx with
    | .error err => (this, some err)
    | .ok keys =>
      match db.Update (fun tx => deleteKeys keys tx) with
      | (db', err) => ({ this with db := some db' }, err)

/-- A connector on which `Open` succeeded and `Close` was not called. -/
def fileConnect.Opened (this : fileConnect) : Prop :=
  ∃ db, this.db = some db ∧ db.closed = false

/-- An open connector over the given items, for examples. -/
def connOf (items : List dbItem) : fileConnect :=
  ⟨⟨"store/cache.db"⟩, some ⟨items, false, 0⟩⟩

/-- The key has a live item in the store: an item that has not expired. This is what the
specification calls a key that is present. -/
def DB.Live (db : DB) (key : String) : Prop :=
  ∃ dbi, findItem key db.keys = some dbi ∧ dbi.expired db.now = false

/-- Time passing for the store behind a connector. -/
def fileConnect.advance (this : fileConnect) (d : Nat) : fileConnect :=
  { this with db := this.db.map (fun db => db.advance d) }

/-- A prefix in which no character is special for the glob matcher. -/
def NoGlob (pfx : String) : Prop := ∀ c ∈ pfx.data, c ≠ '*' ∧ c ≠ '?' ∧ c ≠ '\\'

/-- A prefix that does not end in U+FFFD or U+10FFFF, the two runes `match.Allowable` does not
raise. The empty prefix qualifies. -/
def LastRaisable (pfx : String) : Prop :=
  ∀ r, pfx.data.getLast? = some r → r ≠ runeError ∧ r ≠ maxRune

/-! ## Properties of the standard library and engine embeddings -/

theorem base64_samples :
    EncodeToString [104, 105] = "aGk=" ∧ DecodeString "aGk=" = .ok [104, 105] ∧
      DecodeString "aGk" = .error .corruptInput ∧ DecodeString "a\nGk=\r\n" = .ok [104, 105] ∧
      DecodeString "aGVsbG8h" = .ok [104, 101, 108, 108, 111, 33] ∧
      DecodeString "aA==" = .ok [104] ∧ DecodeString "aA=" = .error .corruptInput ∧
      DecodeString "aGk=x" = .error .corruptInput := by
  decide

theorem decodeMap_encChar : ∀ i, i < 64 → decodeMap (encChar i) = some i := by decide

theorem quantumBytes_three (a b c : Byte) :
    quantumBytes ((a.val * 65536 + b.val * 256 + c.val) / 262144 % 64)
      ((a.val * 65536 + b.val * 256 + c.val) / 4096 % 64)
      ((a.val * 65536 + b.val * 256 + c.val) / 64 % 64)
      ((a.val * 65536 + b.val * 256 + c.val) % 64) 4 = [a, b, c] := by
  have ha := a.isLt
  have hb := b.isLt
  have hc := c.isLt
  simp only [quantumBytes, Nat.add_one_sub_one, List.take_succ_cons, List.take_zero,
    List.cons.injEq, and_true]
  refine ⟨?_, ?_, ?_⟩ <;> apply Fin.ext <;> simp only [Fin.ofNat, Fin.val_mk] <;> omega

theorem quantumBytes_two (a b : Byte) :
    quantumBytes ((a.val * 65536 + b.val * 256) / 262144 % 64)
      ((a.val * 65536 + b.val * 256) / 4096 % 64)
      ((a.val * 65536 + b.val * 256) / 64 % 64) 0 3 = [a, b] := by
  have ha := a.isLt
  have hb := b.isLt
  simp only [quantumBytes, Nat.add_one_sub_one, List.take_succ_cons, List.take_zero,
    List.cons.injEq, and_true]
  refine ⟨?_, ?_⟩ <;> apply Fin.ext <;> simp only [Fin.ofNat, Fin.val_mk] <;> omega

theorem quantumBytes_one (a : Byte) :
    quantumBytes ((a.val * 65536) / 262144 % 64) ((a.val * 65536) / 4096 % 64) 0 0 2 = [a] := by
  have ha := a.isLt
  simp only [quantumBytes, Nat.add_one_sub_one, List.take_succ_cons, List.take_zero,
    List.cons.injEq, and_true]
  apply Fin.ext
  simp only [Fin.ofNat, Fin.val_mk]
  omega

theorem decodeMap_pad : decodeMap '=' = none := by decide

theorem decodeLoop_encodeChars (v : List Byte) :
    ∀ out, decodeLoop (encodeChars v) [] out = .ok (out ++ v) := by
  induction v using encodeChars.induct with
  | case1 a b c rest ih =>
    intro out
    simp only [encodeChars, decodeLoop]
    rw [decodeMap_encChar _ (Nat.mod_lt _ (by norm_num))]
    simp only [List.nil_append, decodeLoop]
    rw [decodeMap_encChar _ (Nat.mod_lt _ (by norm_num))]
    simp only [List.singleton_append, decodeLoop]
    rw [decodeMap_encChar _ (Nat.mod_lt _ (by norm_num))]
    simp only [List.cons_append, List.nil_append, decodeLoop]
    rw [decodeMap_encChar _ (Nat.mod_lt _ (by norm_num))]
    simp only []
    rw [ih, quantumBytes_three, List.append_assoc]
    rfl
  | case2 a b =>
    intro out
    simp only [encodeChars, decodeLoop]
    rw [decodeMap_encChar _ (Nat.mod_lt _ (by norm_num))]
    simp only [List.nil_append, decodeLoop]
    rw [decodeMap_encChar _ (Nat.mod_lt _ (by norm_num))]
    simp only [List.singleton_append, decodeLoop]
    rw [decodeMap_encChar _ (Nat.mod_lt _ (by norm_num))]
    simp only [List.cons_append, List.nil_append, decodeLoop, decodeMap_pad]
    simp [skipNewlines, quantumBytes_two]
  | case3 a =>
    intro out
    simp only [encodeChars, decodeLoop]
    rw [decodeMap_encChar _ (Nat.mod_lt _ (by norm_num))]
    simp only [List.nil_append, decodeLoop]
    rw [decodeMap_encChar _ (Nat.mod_lt _ (by norm_num))]
    simp only [List.singleton_append, decodeLoop, decodeMap_pad]
    simp [skipNewlines, quantumBytes_one]
  | case4 => intro out; simp [encodeChars, decodeLoop]

theorem DecodeString_EncodeToString (v : List Byte) :
    DecodeString (EncodeToString v) = .ok v := by
  simp [DecodeString, EncodeToString, decodeLoop_encodeChars]

theorem EncodeToString_eq_empty (v : List Byte) : EncodeToString v = "" ↔ v = [] := by
  constructor
  · intro h
    have h2 : encodeChars v = [] := by
      have := congrArg String.data h
      simpa [EncodeToString] using this
    match v, h2 with
    | [], _ => rfl
    | [_], h2 => simp [encodeChars] at h2
    | [_, _], h2 => simp [encodeChars] at h2
    | _ :: _ :: _ :: _, h2 => simp [encodeChars] at h2
  · rintro rfl
    rfl

theorem strconv_samples :
    formatInt 15 = [49, 53] ∧ formatInt 0 = [48] ∧ formatInt (-7) = [45, 55] ∧
      ParseInt (formatInt (-9223372036854775808)) = some (-9223372036854775808) ∧
      ParseInt [] = none ∧ ParseInt [43, 49] = some 1 ∧ ParseInt [49, 95, 49] = none ∧
      ParseInt (formatInt 9223372036854775807 ++ [48]) = none ∧
      wrap64 (9223372036854775807 + 1) = -9223372036854775808 := by
  decide

theorem parseUintLoop_formatDigits :
    ∀ (fuel u : Nat) (acc : List Byte), u < 10 ^ fuel → u < 18446744073709551616 →
      parseUintLoop (formatDigits fuel u acc) 0 = parseUintLoop acc u := by
  intro fuel
  induction fuel with
  | zero => intro u acc h _; simp at h; subst h; rfl
  | succ fuel ih =>
    intro u acc h h64
    unfold formatDigits
    split
    · rename_i hu
      have h1 : (Fin.ofNat (48 + u) : Byte).val = 48 + u := by
        simp only [Fin.ofNat, Fin.val_mk]; omega
      simp only [parseUintLoop, h1]
      rw [if_pos (by omega), if_neg (by omega), if_neg (by omega)]
      congr 1
      omega
    · rename_i hu
      rw [ih (u / 10) _ (by rw [pow_succ] at h; omega) (by omega)]
      have h1 : (Fin.ofNat (48 + u % 10) : Byte).val = 48 + u % 10 := by
        simp only [Fin.ofNat, Fin.val_mk]; omega
      simp only [parseUintLoop, h1]
      rw [if_pos (by omega), if_neg (by omega), if_neg (by omega)]
      congr 1
      omega

theorem formatDigits_keeps_digit (fuel u : Nat) (acc : List Byte) (h : StartsWithDigit acc) :
    StartsWithDigit (formatDigits fuel u acc) := by
  induction fuel generalizing u acc with
  | zero => exact h
  | succ fuel ih =>
    unfold formatDigits
    split
    · exact ⟨_, _, rfl, by simp only [Fin.ofNat, Fin.val_mk]; omega,
        by simp only [Fin.ofNat, Fin.val_mk]; omega⟩
    · exact ih _ _ ⟨_, _, rfl, by simp only [Fin.ofNat, Fin.val_mk]; omega,
        by simp only [Fin.ofNat, Fin.val_mk]; omega⟩

theorem formatDigits_startsWithDigit (fuel u : Nat) (acc : List Byte) :
    StartsWithDigit (formatDigits (fuel + 1) u acc) := by
  unfold formatDigits
  split
  · exact ⟨_, _, rfl, by simp only [Fin.ofNat, Fin.val_mk]; omega,
      by simp only [Fin.ofNat, Fin.val_mk]; omega⟩
  · exact formatDigits_keeps_digit _ _ _ ⟨_, _, rfl, by simp only [Fin.ofNat, Fin.val_mk]; omega,
      by simp only [Fin.ofNat, Fin.val_mk]; omega⟩

theorem ParseUint_formatDigits (u : Nat) (h : u < 18446744073709551616) :
    ParseUint (formatDigits 20 u []) = some u := by
  obtain ⟨d, rest, hd, -, -⟩ := formatDigits_startsWithDigit 19 u []
  unfold ParseUint
  rw [if_neg (by rw [hd]; simp)]
  rw [parseUintLoop_formatDigits 20 u [] (by omega) h]
  rfl

theorem ParseInt_formatInt (v : Int) (hlo : -9223372036854775808 ≤ v)
    (hhi : v < 9223372036854775808) : ParseInt (formatInt v) = some v := by
  unfold formatInt
  split
  · rename_i hneg
    have h45 : ((45 : Byte)).val = 45 := rfl
    simp only [ParseInt, h45, or_true, if_true]
    rw [ParseUint_formatDigits _ (by omega)]
    simp only [ne_eq, not_true_eq_false, false_and, if_false, true_and]
    rw [if_neg (by omega)]
    congr 1
    omega
  · rename_i hneg
    obtain ⟨d, rest, hd, hd1, hd2⟩ := formatDigits_startsWithDigit 19 v.natAbs []
    have hP := ParseUint_formatDigits v.natAbs (by omega)
    rw [hd] at hP ⊢
    simp only [ParseInt]
    rw [if_neg (by omega), hP]
    simp only []
    rw [if_neg (by omega), if_neg (by omega), if_neg (by omega)]
    congr 1
    omega

theorem wrap64_range (x : Int) :
    -9223372036854775808 ≤ wrap64 x ∧ wrap64 x < 9223372036854775808 := by
  unfold wrap64
  omega

theorem wrap64_of_range (x : Int) (hlo : -9223372036854775808 ≤ x)
    (hhi : x < 9223372036854775808) : wrap64 x = x := by
  unfold wrap64
  omega

theorem wrap64_add_wrap64 (x y : Int) : wrap64 (wrap64 x + y) = wrap64 (x + y) := by
  unfold wrap64
  omega

/-! ## The key tree -/

theorem findItem_insertItem_self (it : dbItem) (l : List dbItem) :
    findItem it.key (insertItem it l) = some it := by
  induction l with
  | nil => simp [insertItem, findItem]
  | cons x xs ih =>
    unfold insertItem
    split
    · simp [findItem]
    · split
      · simp [findItem]
      · rename_i h1 h2
        simp only [findItem]
        rw [if_neg (fun h => h2 h.symm)]
        exact ih

theorem findItem_insertItem_other (it : dbItem) (key : String) (h : key ≠ it.key)
    (l : List dbItem) : findItem key (insertItem it l) = findItem key l := by
  induction l with
  | nil => simp [insertItem, findItem, Ne.symm h]
  | cons x xs ih =>
    unfold insertItem
    split
    · simp [findItem, Ne.symm h]
    · split
      · rename_i h1 h2
        simp only [findItem]
        rw [if_neg (Ne.symm h), if_neg (by rw [← h2]; exact Ne.symm h)]
      · simp only [findItem]
        rw [ih]

theorem findItem_some_key {key : String} {l : List dbItem} {dbi : dbItem}
    (h : findItem key l = some dbi) : dbi.key = key ∧ dbi ∈ l := by
  induction l with
  | nil => simp [findItem] at h
  | cons x xs ih =>
    simp only [findItem] at h
    split at h
    · rename_i hx
      cases h
      exact ⟨hx, List.mem_cons_self _ _⟩
    · exact ⟨(ih h).1, List.mem_cons_of_mem _ (ih h).2⟩

theorem findItem_eq_none {key : String} {l : List dbItem} :
    findItem key l = none ↔ ∀ x ∈ l, x.key ≠ key := by
  induction l with
  | nil => simp [findItem]
  | cons x xs ih =>
    simp only [findItem]
    split
    · rename_i hx
      simp [hx]
    · rename_i hx
      simp [ih, hx]

theorem deleteItem_eq_filter (key : String) (l : List dbItem)
    (h : (l.map dbItem.key).Pairwise keyLess) :
    deleteItem key l = l.filter (fun x => decide (x.key ≠ key)) := by
  induction l with
  | nil => rfl
  | cons x xs ih =>
    simp only [List.map_cons, List.pairwise_cons] at h
    simp only [deleteItem]
    split
    · rename_i hx
      rw [List.filter_cons_of_neg (by simp [hx])]
      symm
      rw [List.filter_eq_self]
      intro y hy
      have := h.1 y.key (List.mem_map_of_mem _ hy)
      rw [hx] at this
      have hne : y.key ≠ key := fun he => by
        rw [he] at this
        exact lt_irrefl _ this
      simpa using hne
    · rename_i hx
      rw [List.filter_cons_of_pos (by simpa using hx), ih h.2]

theorem pairwise_filter_keys (l : List dbItem) (p : dbItem → Bool)
    (h : (l.map dbItem.key).Pairwise keyLess) :
    ((l.filter p).map dbItem.key).Pairwise keyLess :=
  h.sublist ((List.filter_sublist l).map _)

theorem mem_insertItem {it y : dbItem} {l : List dbItem} (h : y ∈ insertItem it l) :
    y = it ∨ y ∈ l := by
  induction l with
  | nil => simpa [insertItem] using h
  | cons x xs ih =>
    unfold insertItem at h
    split at h
    · simpa using h
    · split at h
      · rcases List.mem_cons.1 h with h | h
        · exact Or.inl h
        · exact Or.inr (List.mem_cons_of_mem _ h)
      · rcases List.mem_cons.1 h with h | h
        · exact Or.inr (by simp [h])
        · rcases ih h with h | h
          · exact Or.inl h
          · exact Or.inr (List.mem_cons_of_mem _ h)

theorem pairwise_insertItem (it : dbItem) (l : List dbItem)
    (h : (l.map dbItem.key).Pairwise keyLess) :
    ((insertItem it l).map dbItem.key).Pairwise keyLess := by
  induction l with
  | nil => simp [insertItem]
  | cons x xs ih =>
    simp only [List.map_cons, List.pairwise_cons] at h
    unfold insertItem
    split
    · rename_i hlt
      simp only [List.map_cons, List.pairwise_cons, List.mem_cons, forall_eq_or_imp]
      exact ⟨⟨hlt, fun a ha => lt_trans hlt (h.1 a ha)⟩, h.1, h.2⟩
    · split
      · rename_i h1 h2
        simp only [List.map_cons, List.pairwise_cons]
        exact ⟨by rw [h2]; exact h.1, h.2⟩
      · rename_i h1 h2
        simp only [List.map_cons, List.pairwise_cons]
        refine ⟨?_, ih h.2⟩
        intro a ha
        obtain ⟨y, hy, rfl⟩ := List.mem_map.1 ha
        rcases mem_insertItem hy with rfl | hy
        · exact lt_of_le_of_ne (not_lt.1 h1) (fun he => h2 (String.ext he.symm))
        · exact h.1 _ (List.mem_map_of_mem _ hy)

theorem findItem_filter_keys (key : String) (ks : List String) (l : List dbItem) :
    findItem key (l.filter (fun x => decide (x.key ∉ ks))) =
      if key ∈ ks then none else findItem key l := by
  induction l with
  | nil => simp [findItem]
  | cons x xs ih =>
    by_cases hx : x.key ∈ ks
    · rw [List.filter_cons_of_neg (by simpa using hx), ih]
      simp only [findItem]
      by_cases hk : x.key = key
      · rw [if_pos (hk ▸ hx), if_pos (hk ▸ hx)]
      · rw [if_neg hk]
    · rw [List.filter_cons_of_pos (by simpa using hx)]
      simp only [findItem]
      by_cases hk : x.key = key
      · rw [if_pos hk, if_pos hk, if_neg (hk ▸ hx)]
      · rw [if_neg hk, if_neg hk, ih]

theorem WF_Set (tx : DB) (key value : String) (ttl : Option Int) (h : tx.WF) :
    (tx.Set key value ttl).WF :=
  pairwise_insertItem _ _ h

theorem WF_Delete (tx tx' : DB) (key : String) (h : tx.WF) (hd : tx.Delete key = .ok tx') :
    tx'.WF := by
  unfold DB.Delete at hd
  split at hd
  · cases hd
  · split at hd
    · cases hd
    · cases hd
      unfold DB.WF
      simp only
      rw [deleteItem_eq_filter key tx.keys h]
      exact pairwise_filter_keys _ _ h

/-! ## Glob patterns -/

theorem match_samples :
    Match "a:1" "a:*" = true ∧ Match "b:1" "a:*" = false ∧ Match "abc" "a*c*" = true ∧
      Match "ab" "?*" = true ∧ Match "a*" "a\\**" = true ∧ Match "ab" "a\\**" = false ∧
      Match "anything" "*" = true := by
  decide


theorem starMatch_nil_pattern (s : List Char) : starMatch (matchChars []) s = true := by
  induction s with
  | nil => rfl
  | cons c s ih => simp [starMatch, ih]

theorem matchChars_literal_star (p : List Char)
    (hp : ∀ c ∈ p, c ≠ '*' ∧ c ≠ '?' ∧ c ≠ '\\') (s : List Char) :
    matchChars (p ++ ['*']) s = true ↔ p <+: s := by
  induction p generalizing s with
  | nil =>
    simp only [List.nil_append, matchChars, if_true, List.nil_prefix, iff_true]
    exact starMatch_nil_pattern s
  | cons c p ih =>
    have hc := hp c (List.mem_cons_self _ _)
    have ih := ih (fun d hd => hp d (List.mem_cons_of_mem _ hd))
    simp only [List.cons_append]
    unfold matchChars
    rw [if_neg hc.1, if_neg hc.2.1, if_neg hc.2.2]
    cases s with
    | nil => simp
    | cons d s =>
      simp only [Bool.and_eq_true, decide_eq_true_eq, ih, List.cons_prefix_cons]
      constructor
      · rintro ⟨h1, h2⟩
        exact ⟨h1.symm, h2⟩
      · rintro ⟨h1, h2⟩
        exact ⟨h1.symm, h2⟩

theorem Match_literal_star (pfx key : String) (hp : NoGlob pfx) :
    Match key (pfx ++ "*") = true ↔ pfx.data <+: key.data := by
  unfold Match
  rw [String.data_append]
  exact matchChars_literal_star pfx.data hp key.data

theorem append_star_ne_empty (pfx : String) : pfx ++ "*" ≠ "" := by
  intro h
  have := congrArg String.data h
  rw [String.data_append] at this
  simp at this

/-! ## The range of a pattern -/

theorem char_lt_iff (a b : Char) : a < b ↔ a.toNat < b.toNat := by
  rw [Char.lt_def, UInt32.lt_def, BitVec.lt_def]
  rfl

theorem toNat_ofNat_valid (n : Nat) (h : n.isValidChar) : (Char.ofNat n).toNat = n := by
  unfold Char.ofNat
  rw [dif_pos h]
  rfl

theorem char_valid (r : Char) :
    r.toNat < 0xD800 ∨ (0xDFFF < r.toNat ∧ r.toNat < 0x110000) := r.valid

theorem lt_nextRune (r : Char) (h : r.toNat < 0x10FFFF) : r < nextRune r := by
  have hv := char_valid r
  rw [char_lt_iff]
  unfold nextRune
  split
  · have : runeError.toNat = 0xFFFD := by decide
    omega
  · rw [toNat_ofNat_valid]
    · omega
    · show _ < 0xD800 ∨ (0xDFFF < _ ∧ _ < 0x110000)
      omega

theorem toNat_lt_of_ne_maxRune (r : Char) (h : r ≠ maxRune) : r.toNat < 0x10FFFF := by
  have hv := char_valid r
  by_contra hge
  apply h
  have h1 : r.toNat = maxRune.toNat := by
    have : maxRune.toNat = 0x10FFFF := by decide
    omega
  rw [← Char.ofNat_toNat r, h1, Char.ofNat_toNat]

theorem allowableLoop_literal_star (p : List Char) (hp : ∀ c ∈ p, c ≠ '*' ∧ c ≠ '?' ∧ c ≠ '\\') :
    allowableLoop (p ++ ['*']) = (p, p, true) := by
  induction p with
  | nil => simp [allowableLoop]
  | cons c p ih =>
    have hc := hp c (List.mem_cons_self _ _)
    have ih := ih (fun d hd => hp d (List.mem_cons_of_mem _ hd))
    have ih2 : allowableLoop (List.append p ['*']) = (p, p, true) := ih
    simp only [List.cons_append, allowableLoop]
    rw [if_neg hc.1, if_neg hc.2.1, ih2]

theorem prefix_not_lt (p k : List Char) (h : p <+: k) : ¬ k < p := by
  obtain ⟨t, rfl⟩ := h
  induction p with
  | nil => exact List.Lex.not_nil_right _ _
  | cons a p ih =>
    intro hlt
    exact ih (List.Lex.cons_iff.1 hlt)

theorem prefix_lt_bumped (q k : List Char) (r r' : Char) (hr : r < r')
    (h : (q ++ [r]) <+: k) : k < q ++ [r'] := by
  obtain ⟨t, rfl⟩ := h
  rw [List.append_assoc]
  exact List.Lex.append_left _ (List.Lex.rel hr) q

theorem filter_dropWhile_of_imp {α : Type} (f p : α → Bool) (l : List α)
    (h : ∀ x ∈ l, f x = true → p x = false) : (l.dropWhile p).filter f = l.filter f := by
  induction l with
  | nil => rfl
  | cons x xs ih =>
    have ih := ih (fun y hy => h y (List.mem_cons_of_mem _ hy))
    cases hpx : p x with
    | false => rw [List.dropWhile_cons_of_neg (by simp [hpx])]
    | true =>
      rw [List.dropWhile_cons_of_pos hpx, ih]
      have hfx : f x = false := by
        by_contra hf
        have := h x (List.mem_cons_self _ _) (by simpa using hf)
        rw [hpx] at this
        cases this
      rw [List.filter_cons_of_neg (by simp [hfx])]

theorem filter_takeWhile_sorted {α : Type} (R : α → α → Prop) (f q : α → Bool) (l : List α)
    (hs : l.Pairwise R) (hq : ∀ x y, R x y → q x = false → q y = false)
    (h : ∀ x ∈ l, f x = true → q x = true) : (l.takeWhile q).filter f = l.filter f := by
  induction l with
  | nil => rfl
  | cons x xs ih =>
    rw [List.pairwise_cons] at hs
    have ih := ih hs.2 (fun y hy => h y (List.mem_cons_of_mem _ hy))
    cases hqx : q x with
    | true =>
      rw [List.takeWhile_cons_of_pos hqx]
      by_cases hfx : f x = true
      · rw [List.filter_cons_of_pos hfx, List.filter_cons_of_pos hfx, ih]
      · rw [List.filter_cons_of_neg hfx, List.filter_cons_of_neg hfx, ih]
    | false =>
      rw [List.takeWhile_cons_of_neg (by simp [hqx])]
      symm
      rw [List.filter_nil, List.filter_eq_nil_iff]
      intro y hy hfy
      rcases List.mem_cons.1 hy with rfl | hy
      · have := h y (List.mem_cons_self _ _) hfy
        rw [hqx] at this
        cases this
      · have h1 := hq x y (hs.1 y hy) hqx
        have h2 := h y (List.mem_cons_of_mem _ hy) hfy
        rw [h1] at h2
        cases h2

theorem Match_star (key : String) : Match key "*" = true := by
  unfold Match
  show matchChars ['*'] key.data = true
  simp only [matchChars, if_true]
  exact starMatch_nil_pattern _

theorem bumpLast_spec (p : List Char) (hne : p ≠ [])
    (hl : ∀ r, p.getLast? = some r → r ≠ runeError ∧ r ≠ maxRune) :
    ∃ q r, p = q ++ [r] ∧ bumpLast p = q ++ [nextRune r] ∧ r < nextRune r := by
  have hp : p = p.dropLast ++ [p.getLast hne] := (List.dropLast_append_getLast hne).symm
  have hlast : p.getLast? = some (p.getLast hne) := List.getLast?_eq_getLast _ hne
  obtain ⟨h1, h2⟩ := hl _ hlast
  refine ⟨p.dropLast, p.getLast hne, hp, ?_, lt_nextRune _ (toNat_lt_of_ne_maxRune _ h2)⟩
  unfold bumpLast
  rw [hlast]
  simp only
  rw [if_pos ⟨h1, toNat_lt_of_ne_maxRune _ h2⟩]

theorem AscendKeys_literal (tx : DB) (pfx : String) (hwf : tx.WF) (hp : NoGlob pfx)
    (hl : LastRaisable pfx) :
    tx.AscendKeys (pfx ++ "*") =
      (tx.keys.map dbItem.key).filter (fun k => Match k (pfx ++ "*")) := by
  unfold DB.AscendKeys
  rw [String.data_append]
  cases hd : pfx.data with
  | nil =>
    have hpfx : pfx = "" := String.ext hd
    subst hpfx
    simp only [List.nil_append, if_true]
    have hstar : ("" : String) ++ "*" = "*" := rfl
    rw [hstar, if_pos rfl]
    symm
    rw [List.filter_eq_self]
    intro k _
    exact Match_star k
  | cons c p =>
    have hc := hp c (by rw [hd]; exact List.mem_cons_self _ _)
    show (if c = '*' then _ else _) = _
    rw [if_neg hc.1]
    have hall : Allowable (pfx ++ "*") = (pfx, String.mk (bumpLast pfx.data)) := by
      unfold Allowable
      rw [String.data_append, allowableLoop_literal_star pfx.data hp, hd]
      show (if c = '*' then _ else _) = _
      rw [if_neg hc.1]
      simp only [if_true]
      rw [← hd]
    obtain ⟨q, r, hq, hb, hr⟩ := bumpLast_spec pfx.data (by rw [hd]; simp) hl
    rw [hall]
    simp only
    have hmatch : ∀ k : String, Match k (pfx ++ "*") = true → pfx.data <+: k.data :=
      fun k hk => (Match_literal_star pfx k hp).1 hk
    rw [filter_takeWhile_sorted keyLess, filter_dropWhile_of_imp]
    · intro k _ hk
      simp only [keyBefore, decide_eq_false_iff_not]
      exact prefix_not_lt _ _ (hmatch k hk)
    · exact hwf.sublist (List.dropWhile_sublist _)
    · intro x y hxy hx
      simp only [keyBefore, Bool.not_eq_false', decide_eq_true_eq] at hx ⊢
      exact lt_trans hx hxy
    · intro k _ hk
      simp only [keyBefore, Bool.not_eq_true', decide_eq_false_iff_not]
      have h1 := hmatch k hk
      rw [hq] at h1
      have h2 := prefix_lt_bumped q k.data r (nextRune r) hr h1
      rw [hb]
      exact lt_asymm h2

/-! ## Transactions -/

theorem deleteKeys_ok (ks : List String) :
    ∀ (tx tx' : DB), tx.WF → deleteKeys ks tx = .ok tx' →
      tx' = { tx with keys := tx.keys.filter (fun x => decide (x.key ∉ ks)) } := by
  induction ks with
  | nil =>
    intro tx tx' _ h
    simp only [deleteKeys, Except.ok.injEq] at h
    subst h
    simp
  | cons k ks ih =>
    intro tx tx' hwf h
    simp only [deleteKeys] at h
    cases hd : tx.Delete k with
    | error e => rw [hd] at h; cases h
    | ok tx1 =>
      rw [hd] at h
      simp only at h
      have h1 : tx1 = { tx with keys := deleteItem k tx.keys } := by
        unfold DB.Delete at hd
        split at hd
        · cases hd
        · split at hd
          · cases hd
          · cases hd; rfl
      have hwf1 : tx1.WF := by
        rw [h1]
        unfold DB.WF
        simp only
        rw [deleteItem_eq_filter k tx.keys hwf]
        exact pairwise_filter_keys _ _ hwf
      rw [ih tx1 tx' hwf1 h, h1]
      simp only [DB.mk.injEq, and_true, true_and]
      rw [deleteItem_eq_filter k tx.keys hwf, List.filter_filter]
      congr 1
      funext x
      simp only [List.mem_cons, not_or, ne_eq, decide_not, Bool.and_eq_true]
      by_cases hx : x.key = k <;> by_cases hy : x.key ∈ ks <;> simp [hx, hy]

theorem formatInt_ne_nil (v : Int) : formatInt v ≠ [] := by
  unfold formatInt
  split
  · simp
  · obtain ⟨d, rest, hd, -, -⟩ := formatDigits_startsWithDigit 19 v.natAbs []
    rw [hd]
    simp

/-! ## The connector on an open store -/

theorem Write_opened (c : fileConnect) (db : DB) (hdb : c.db = some db) (hcl : db.closed = false)
    (k : String) (v : List Byte) (hv : v ≠ []) (expire : Int) :
    c.Write k v expire =
      ({ c with db := some (db.Set k (EncodeToString v) (if expire > 0 then some expire else none)) },
        none) := by
  unfold fileConnect.Write
  rw [hdb]
  simp only
  rw [if_neg (fun h => hv ((EncodeToString_eq_empty v).1 h))]
  simp [DB.Update, hcl]

theorem Read_of_item (c : fileConnect) (db : DB) (hdb : c.db = some db) (hcl : db.closed = false)
    (k : String) (dbi : dbItem) (hfind : findItem k db.keys = some dbi)
    (hexp : dbi.expired db.now = false) :
    c.Read k =
      match DecodeString dbi.val with
      | .error err => .error err
      | .ok data => .ok (some data) := by
  unfold fileConnect.Read
  rw [hdb]
  simp [DB.View, hcl, DB.Get, hfind, hexp]

theorem Read_miss (c : fileConnect) (db : DB) (hdb : c.db = some db) (hcl : db.closed = false)
    (k : String) (hk : ¬ db.Live k) : c.Read k = .ok none := by
  unfold fileConnect.Read
  rw [hdb]
  simp only [DB.View, hcl, Bool.false_eq_true, if_false, DB.Get]
  cases hfind : findItem k db.keys with
  | none => simp
  | some dbi =>
    have hexp : dbi.expired db.now = true := by
      by_contra h
      exact hk ⟨dbi, hfind, by simpa using h⟩
    simp [hexp]

theorem Read_after_Set (c : fileConnect) (db : DB) (hcl : db.closed = false) (k : String)
    (v : List Byte) (d : Nat) :
    (fileConnect.advance { c with db := some (db.Set k (EncodeToString v) none) } d).Read k =
      .ok (some v) := by
  rw [Read_of_item _ ((db.Set k (EncodeToString v) none).advance d) rfl
    (by simpa [DB.advance, DB.Set] using hcl) k ⟨k, EncodeToString v, none⟩
    (by simpa [DB.advance, DB.Set] using findItem_insertItem_self ⟨k, EncodeToString v, none⟩ db.keys)
    rfl]
  simp [DecodeString_EncodeToString]

theorem advance_zero (c : fileConnect) : c.advance 0 = c := by
  cases c with
  | mk setting db =>
    cases db with
    | none => rfl
    | some db => simp [fileConnect.advance, DB.advance]

theorem not_Live_after_Delete (tx tx' : DB) (key : String) (h : tx.WF)
    (hd : tx.Delete key = .ok tx') : ¬ tx'.Live key := by
  unfold DB.Delete at hd
  split at hd
  · cases hd
  · split at hd
    · cases hd
    · cases hd
      rintro ⟨dbi, hfind, -⟩
      simp only at hfind
      rw [deleteItem_eq_filter key tx.keys h] at hfind
      have := (findItem_some_key hfind)
      have hmem := List.mem_filter.1 this.2
      simp [this.1] at hmem

theorem not_Live_after_expiry (db : DB) (key value : String) (ttl : Int) (d : Nat)
    (hd : ttl < d) : ¬ ((db.Set key value (some ttl)).advance d).Live key := by
  rintro ⟨dbi, hfind, hexp⟩
  have hself := findItem_insertItem_self ⟨key, value, some (db.now + ttl)⟩ db.keys
  simp only [DB.advance, DB.Set, Option.map_some'] at hfind hexp
  rw [hself] at hfind
  cases hfind
  simp only [dbItem.expired, gt_iff_lt, decide_eq_false_iff_not, not_lt] at hexp
  omega

/-! ## The claims -/

/-- C1: on an open connector, writing a non-empty byte sequence `v` (any bytes) under `k` with
no expiration succeeds, and a following `Read(k)`, right away or after any lapse of time, returns
exactly `v` with no error. -/
theorem Write_Read_roundtrip (c : fileConnect) (k : String) (v : List Byte)
    (hc : c.Opened) (hv : v ≠ []) :
    (c.Write k v 0).2 = none ∧ (c.Write k v 0).1.Read k = .ok (some v) ∧
      ∀ d : Nat, ((c.Write k v 0).1.advance d).Read k = .ok (some v) := by
  obtain ⟨db, hdb, hcl⟩ := hc
  rw [Write_opened c db hdb hcl k v hv 0]
  simp only [gt_iff_lt, lt_self_iff_false, if_false, true_and]
  refine ⟨?_, fun d => Read_after_Set c db hcl k v d⟩
  have := Read_after_Set c db hcl k v 0
  rwa [advance_zero] at this

theorem Write_Read_roundtrip_witness :
    (connOf []).Opened ∧ ([255, 0, 254] : List Byte) ≠ [] ∧
      ((connOf []).Write "k" [255, 0, 254] 0).1.Read "k" = .ok (some [255, 0, 254]) :=
  ⟨⟨_, rfl, rfl⟩, by decide,
    (Write_Read_roundtrip (connOf []) "k" [255, 0, 254] ⟨_, rfl, rfl⟩ (by decide)).2.1⟩

/-- C2: on an open connector, `Read` of a key that has no live item in the store (never
written, deleted, or expired) returns no value and no error. -/
theorem Read_absent_is_miss (c : fileConnect) (db : DB) (k : String)
    (hdb : c.db = some db) (hcl : db.closed = false) (hk : ¬ db.Live k) :
    c.Read k = .ok none :=
  Read_miss c db hdb hcl k hk

theorem Read_absent_is_miss_witness :
    ((connOf [⟨"k", "aGk=", some 5⟩]).advance 6).db = some ⟨[⟨"k", "aGk=", some 5⟩], false, 6⟩ ∧
      ¬ DB.Live ⟨[⟨"k", "aGk=", some 5⟩], false, 6⟩ "k" ∧
      (connOf [⟨"k", "aGk=", some 5⟩]).Read "k" = .ok (some [104, 105]) ∧
      ((connOf [⟨"k", "aGk=", some 5⟩]).advance 6).Read "k" = .ok none :=
  ⟨by decide,
    by rintro ⟨dbi, h1, h2⟩; simp [findItem] at h1; subst h1; revert h2; decide,
    by decide,
    Read_absent_is_miss _ ⟨[⟨"k", "aGk=", some 5⟩], false, 6⟩ "k" (by decide) rfl
      (by rintro ⟨dbi, h1, h2⟩; simp [findItem] at h1; subst h1; revert h2; decide)⟩

/-- C9: on an open connector, `Write` of the empty byte sequence fails with `errEmptyData`
whatever the ttl and leaves the connector and its store as they were, so `Read(k)` returns what
it returned before; and `Write` fails with `errEmptyData` only for the empty byte sequence. -/
theorem Write_empty_rejected (c : fileConnect) (k : String) (ttl : Int) (hc : c.Opened) :
    c.Write k [] ttl = (c, some .emptyData) ∧ (c.Write k [] ttl).1.Read k = c.Read k ∧
      ∀ v : List Byte, (c.Write k v ttl).2 = some .emptyData → v = [] := by
  obtain ⟨db, hdb, hcl⟩ := hc
  have h1 : c.Write k [] ttl = (c, some .emptyData) := by
    unfold fileConnect.Write
    rw [hdb]
    simp [(EncodeToString_eq_empty []).2 rfl]
  refine ⟨h1, by rw [h1], ?_⟩
  intro v hv
  by_contra hne
  rw [Write_opened c db hdb hcl k v hne ttl] at hv
  cases hv

theorem Write_empty_rejected_witness :
    (connOf [⟨"k", "aGk=", none⟩]).Opened ∧
      (connOf [⟨"k", "aGk=", none⟩]).Write "k" [] 7 =
        (connOf [⟨"k", "aGk=", none⟩], some .emptyData) :=
  ⟨⟨_, rfl, rfl⟩, (Write_empty_rejected (connOf [⟨"k", "aGk=", none⟩]) "k" 7 ⟨_, rfl, rfl⟩).1⟩

/-- C3: `Exists` answers the wrong way round. On an open connector it returns true for a key
that was never written and false for a key that is present and readable. -/
theorem Exists_inverted :
    (connOf []).Exists "k" = .ok true ∧
      (connOf [⟨"k", "aGk=", none⟩]).Read "k" = .ok (some [104, 105]) ∧
      (connOf [⟨"k", "aGk=", none⟩]).Exists "k" = .ok false := by
  decide

/-- C4: `Delete` of an absent key on an open connector returns the error `buntdb.ErrNotFound`
(the store is left as it was), and so does the second of two `Delete` calls in a row on a key
that was present. -/
theorem Delete_absent_fails :
    (connOf []).Delete "k" = (connOf [], some .notFound) ∧
      (connOf [⟨"k", "aGk=", none⟩]).Delete "k" = (connOf [], none) ∧
      ((connOf [⟨"k", "aGk=", none⟩]).Delete "k").1.Delete "k" = (connOf [], some .notFound) := by
  decide

/-- C5, as stated, fails: a `*` or `?` in the prefix is a wildcard, so `Keys("a*c")` returns the
key `abc` and `Keys("?")` the key `ab`, though neither key starts with the prefix taken
literally; for the prefix U+FFFD the scan ends right after the prefix itself, so the stored key
made of U+FFFD and `x` is not returned; and a key whose item has expired but is still in the
tree is returned, though `Read` reports it as a miss. -/
theorem Keys_prefix_is_pattern :
    (connOf [⟨"abc", "eA==", none⟩]).Keys "a*c" = .ok ["abc"] ∧
      ¬ ("a*c".data <+: "abc".data) ∧
      (connOf [⟨"ab", "eA==", none⟩]).Keys "?" = .ok ["ab"] ∧
      ¬ ("?".data <+: "ab".data) ∧
      (connOf [⟨"�", "eA==", none⟩, ⟨"�x", "eA==", none⟩]).Keys "�" =
        .ok ["�"] ∧
      "�".data <+: "�x".data ∧
      ((connOf [⟨"k", "aGk=", some 5⟩]).advance 6).Keys "" = .ok ["k"] ∧
      ((connOf [⟨"k", "aGk=", some 5⟩]).advance 6).Read "k" = .ok none := by
  refine ⟨by decide, by decide, by decide, by decide, by decide, by decide, by decide, by decide⟩

/-- C5, amended: on an open connector over a well-formed store, for a prefix with none of the
characters `*`, `?` and `\` that does not end in U+FFFD or U+10FFFF (the empty prefix included),
`Keys` returns without error exactly the keys in the store's key tree that start with the
prefix, each once, in ascending order; the key of an expired item that is still in the tree is
among them, and when no item of the tree has expired they are exactly the keys with a live item
that start with the prefix. -/
theorem Keys_literal_prefix (c : fileConnect) (db : DB) (pfx : String)
    (hdb : c.db = some db) (hcl : db.closed = false) (hwf : db.WF) (hp : NoGlob pfx)
    (hl : LastRaisable pfx) :
    ∃ ks, c.Keys pfx = .ok ks ∧ ks.Pairwise keyLess ∧
      (∀ k, k ∈ ks ↔ (∃ dbi ∈ db.keys, dbi.key = k) ∧ pfx.data <+: k.data) ∧
      ((∀ dbi ∈ db.keys, dbi.expired db.now = false) →
        ∀ k, k ∈ ks ↔ db.Live k ∧ pfx.data <+: k.data) := by
  have hmem : ∀ k, k ∈ (db.keys.map dbItem.key).filter (fun k => Match k (pfx ++ "*")) ↔
      (∃ dbi ∈ db.keys, dbi.key = k) ∧ pfx.data <+: k.data := by
    intro k
    simp only [List.mem_filter, List.mem_map, Match_literal_star pfx k hp]
  refine ⟨(db.keys.map dbItem.key).filter (fun k => Match k (pfx ++ "*")), ?_, ?_, hmem, ?_⟩
  · unfold fileConnect.Keys
    rw [hdb]
    simp only [DB.View, hcl, Bool.false_eq_true, if_false]
    rw [AscendKeys_literal db pfx hwf hp hl]
  · exact hwf.sublist (List.filter_sublist _)
  · intro hlive k
    rw [hmem k]
    constructor
    · rintro ⟨⟨dbi, hin, hkey⟩, hpre⟩
      refine ⟨?_, hpre⟩
      cases hfind : findItem k db.keys with
      | none => exact absurd hkey (findItem_eq_none.1 hfind dbi hin)
      | some x => exact ⟨x, hfind, hlive x (findItem_some_key hfind).2⟩
    · rintro ⟨⟨dbi, hfind, -⟩, hpre⟩
      exact ⟨⟨dbi, (findItem_some_key hfind).2, (findItem_some_key hfind).1⟩, hpre⟩

theorem Keys_literal_prefix_witness :
    (connOf [⟨"a:1", "eA==", none⟩, ⟨"a:2", "eA==", none⟩, ⟨"b:1", "eA==", none⟩]).Keys "a:" =
        .ok ["a:1", "a:2"] ∧
      ∃ ks, (connOf [⟨"a:1", "eA==", none⟩, ⟨"a:2", "eA==", none⟩, ⟨"b:1", "eA==", none⟩]).Keys "a:" =
          .ok ks ∧ ks.Pairwise keyLess ∧
        ∀ k, k ∈ ks ↔
          (∃ dbi ∈ [(⟨"a:1", "eA==", none⟩ : dbItem), ⟨"a:2", "eA==", none⟩, ⟨"b:1", "eA==", none⟩],
            dbi.key = k) ∧ "a:".data <+: k.data :=
  ⟨by decide,
    ( Keys_literal_prefix _ ⟨[⟨"a:1", "eA==", none⟩, ⟨"a:2", "eA==", none⟩, ⟨"b:1", "eA==", none⟩],
      false, 0⟩ "a:" rfl rfl (by unfold DB.WF keyLess; decide) (by unfold NoGlob; decide)
      (by unfold LastRaisable; decide)).imp (fun _ h => ⟨h.1, h.2.1, h.2.2.1⟩)⟩

theorem Read_congr (c c' : fileConnect) (db db' : DB) (k : String)
    (hdb : c.db = some db) (hdb' : c'.db = some db') (hcl : db'.closed = db.closed)
    (hnow : db'.now = db.now) (hfind : findItem k db'.keys = findItem k db.keys) :
    c'.Read k = c.Read k := by
  unfold fileConnect.Read
  rw [hdb, hdb']
  simp only [DB.View, DB.Get, hcl, hnow, hfind]

theorem Clear_opened (c : fileConnect) (db : DB) (pfx : String)
    (hdb : c.db = some db) (hcl : db.closed = false) (hwf : db.WF)
    (hok : (c.Clear pfx).2 = none) :
    c.Keys pfx = .ok (db.AscendKeys (pfx ++ "*")) ∧
      c.Clear pfx =
        (⟨c.setting, some ⟨db.keys.filter (fun x => decide (x.key ∉ db.AscendKeys (pfx ++ "*"))),
          db.closed, db.now⟩⟩, none) := by
  have hkeys : c.Keys pfx = .ok (db.AscendKeys (pfx ++ "*")) := by
    unfold fileConnect.Keys
    rw [hdb]
    simp [DB.View, hcl]
  refine ⟨hkeys, ?_⟩
  unfold fileConnect.Clear at hok ⊢
  rw [hdb] at hok ⊢
  simp only [hkeys, DB.Update, hcl, Bool.false_eq_true, if_false] at hok ⊢
  cases hd : deleteKeys (db.AscendKeys (pfx ++ "*")) db with
  | error e => rw [hd] at hok; cases hok
  | ok tx =>
    rw [deleteKeys_ok _ db tx hwf hd]
    simp [hcl]

/-- C6: on an open connector over a well-formed store, a `Clear(prefix)` that returns no error
removes exactly the keys that `Keys(prefix)` lists on the store before the call: the store keeps
the items whose key is not listed and only those, a listed key is then absent and reads as a
miss, and every other key has the item it had and reads as before. -/
theorem Clear_removes_listed_keys (c : fileConnect) (db : DB) (pfx : String)
    (hdb : c.db = some db) (hcl : db.closed = false) (hwf : db.WF)
    (hok : (c.Clear pfx).2 = none) :
    ∃ ks db', c.Keys pfx = .ok ks ∧ (c.Clear pfx).1.db = some db' ∧
      db'.keys = db.keys.filter (fun x => decide (x.key ∉ ks)) ∧
      (∀ k ∈ ks, findItem k db'.keys = none ∧ (c.Clear pfx).1.Read k = .ok none) ∧
      (∀ k, k ∉ ks → findItem k db'.keys = findItem k db.keys ∧
        (c.Clear pfx).1.Read k = c.Read k) := by
  obtain ⟨hkeys, hclear⟩ := Clear_opened c db pfx hdb hcl hwf hok
  refine ⟨_, _, hkeys, by rw [hclear], rfl, ?_, ?_⟩
  · intro k hk
    have hnone : findItem k
        (db.keys.filter (fun x => decide (x.key ∉ db.AscendKeys (pfx ++ "*")))) = none := by
      rw [findItem_filter_keys, if_pos hk]
    refine ⟨hnone, ?_⟩
    rw [hclear]
    refine Read_miss _ ⟨db.keys.filter (fun x => decide (x.key ∉ db.AscendKeys (pfx ++ "*"))),
      db.closed, db.now⟩ rfl hcl k ?_
    rintro ⟨dbi, h1, -⟩
    rw [hnone] at h1
    cases h1
  · intro k hk
    have hsame : findItem k
        (db.keys.filter (fun x => decide (x.key ∉ db.AscendKeys (pfx ++ "*")))) =
          findItem k db.keys := by
      rw [findItem_filter_keys, if_neg hk]
    refine ⟨hsame, ?_⟩
    rw [hclear]
    exact Read_congr c _ db
      ⟨db.keys.filter (fun x => decide (x.key ∉ db.AscendKeys (pfx ++ "*"))), db.closed, db.now⟩
      k hdb rfl rfl rfl hsame

theorem Clear_removes_listed_keys_witness :
    (connOf [⟨"a:1", "eA==", none⟩, ⟨"a:2", "eA==", none⟩, ⟨"b:1", "eQ==", none⟩]).Clear "a:" =
        (connOf [⟨"b:1", "eQ==", none⟩], none) ∧
      (connOf [⟨"b:1", "eQ==", none⟩]).Read "b:1" = .ok (some [121]) ∧
      ∃ ks db',
        (connOf [⟨"a:1", "eA==", none⟩, ⟨"a:2", "eA==", none⟩, ⟨"b:1", "eQ==", none⟩]).Keys "a:" =
          .ok ks ∧
        ((connOf [⟨"a:1", "eA==", none⟩, ⟨"a:2", "eA==", none⟩,
          ⟨"b:1", "eQ==", none⟩]).Clear "a:").1.db = some db' ∧
        db'.keys = ([⟨"a:1", "eA==", none⟩, ⟨"a:2", "eA==", none⟩,
          ⟨"b:1", "eQ==", none⟩] : List dbItem).filter (fun x => decide (x.key ∉ ks)) :=
  ⟨by decide, by decide,
    (Clear_removes_listed_keys
      (connOf [⟨"a:1", "eA==", none⟩, ⟨"a:2", "eA==", none⟩, ⟨"b:1", "eQ==", none⟩])
      ⟨[⟨"a:1", "eA==", none⟩, ⟨"a:2", "eA==", none⟩, ⟨"b:1", "eQ==", none⟩], false, 0⟩ "a:"
      rfl rfl (by unfold DB.WF keyLess; decide) (by decide)).imp
      (fun _ h => h.imp (fun _ h => ⟨h.1, h.2.1, h.2.2.1⟩))⟩

theorem Sequence_opened (c : fileConnect) (db : DB) (hdb : c.db = some db)
    (hcl : db.closed = false) (k : String) (start step ttl cur : Int)
    (hcur : (match c.Read k with
      | .ok data =>
        match ParseInt (bytesOf data) with
        | some num => num
        | none => start
      | .error _ => start) = cur) :
    c.Sequence k start step ttl =
      ({ c with db := some (db.Set k (EncodeToString (formatInt (wrap64 (cur + step))))
          (if ttl > 0 then some ttl else none)) }, .ok (wrap64 (cur + step))) := by
  unfold fileConnect.Sequence
  simp only [hcur]
  rw [Write_opened c db hdb hcl k _ (formatInt_ne_nil _) ttl]

theorem Read_after_Set_ttl (c : fileConnect) (db : DB) (hcl : db.closed = false) (k : String)
    (v : List Byte) (ttl : Int) :
    fileConnect.Read { c with db := some (db.Set k (EncodeToString v)
        (if ttl > 0 then some ttl else none)) } k = .ok (some v) := by
  have hfind := findItem_insertItem_self
    ⟨k, EncodeToString v, (if ttl > 0 then some ttl else none).map (db.now + ·)⟩ db.keys
  have hexp : dbItem.expired
      ⟨k, EncodeToString v, (if ttl > 0 then some ttl else none).map (db.now + ·)⟩ db.now =
        false := by
    unfold dbItem.expired
    split_ifs with h
    · simp only [Option.map_some', gt_iff_lt, decide_eq_false_iff_not, not_lt]
      omega
    · rfl
  rw [Read_of_item _ (db.Set k (EncodeToString v) (if ttl > 0 then some ttl else none)) rfl
    hcl k _ hfind hexp]
  simp [DecodeString_EncodeToString]

/-- C7: on an open connector, for a key with no live item and any `start` and `step`,
`Sequence(k, start, step, 0)` returns `start + step` and an immediately following call with the
same arguments returns `start + 2 * step`, both sums taken in `int64`. -/
theorem Sequence_accumulates (c : fileConnect) (db : DB) (k : String) (start step : Int)
    (hdb : c.db = some db) (hcl : db.closed = false) (hk : ¬ db.Live k) :
    (c.Sequence k start step 0).2 = .ok (wrap64 (start + step)) ∧
      ((c.Sequence k start step 0).1.Sequence k start step 0).2 =
        .ok (wrap64 (start + 2 * step)) := by
  have h1 := Sequence_opened c db hdb hcl k start step 0 start
    (by rw [Read_miss c db hdb hcl k hk]; rfl)
  rw [h1]
  refine ⟨rfl, ?_⟩
  have hr := Read_after_Set_ttl c db hcl k (formatInt (wrap64 (start + step))) 0
  have h2 := Sequence_opened _ _ rfl (show (db.Set k (EncodeToString (formatInt (wrap64 (start + step))))
      (if (0 : Int) > 0 then some 0 else none)).closed = false from hcl) k start step 0
    (wrap64 (start + step))
    (by
      rw [hr]
      simp only [bytesOf, Option.getD_some]
      rw [ParseInt_formatInt _ (wrap64_range _).1 (wrap64_range _).2])
  rw [h2]
  simp only [Except.ok.injEq]
  rw [wrap64_add_wrap64]
  congr 1
  ring

theorem Sequence_accumulates_witness :
    ((connOf []).Sequence "k" 10 5 0).2 = .ok 15 ∧
      (((connOf []).Sequence "k" 10 5 0).1.Sequence "k" 10 5 0).2 = .ok 20 :=
  Sequence_accumulates (connOf []) ⟨[], false, 0⟩ "k" 10 5 rfl rfl
    (by rintro ⟨dbi, h, -⟩; cases h)

/-- C8, as stated, fails: the stored text `!` is not valid base64, so `Read` fails with a decode
error, yet `Sequence(k, 10, 5, 0)` returns 15 with no error and replaces the stored text. -/
theorem Sequence_ignores_Read_error :
    (connOf [⟨"k", "!", none⟩]).Read "k" = .error .corruptInput ∧
      (connOf [⟨"k", "!", none⟩]).Sequence "k" 10 5 0 =
        (connOf [⟨"k", "MTU=", none⟩], .ok 15) := by
  decide

/-- C8, amended: when `Read(k)` fails on an open connector (a decode error), `Sequence` does not
return the error: it counts from `start`, returns `start + step` (in `int64`) with no error and
stores it, so that `Read(k)` then gives its decimal text. When `Read(k)` fails on a connector
that is not open, `Sequence` returns that same error and leaves the connector and its store as
they were. And whenever `Sequence` returns an error, the connector and its store are as they
were. -/
theorem Sequence_failure (c : fileConnect) (k : String) (start step ttl : Int) :
    (∀ e, c.Read k = .error e →
      (c.Opened →
        (c.Sequence k start step ttl).2 = .ok (wrap64 (start + step)) ∧
        (c.Sequence k start step ttl).1.Read k = .ok (some (formatInt (wrap64 (start + step))))) ∧
      (¬ c.Opened → c.Sequence k start step ttl = (c, .error e))) ∧
    (∀ e, (c.Sequence k start step ttl).2 = .error e → (c.Sequence k start step ttl).1 = c) := by
  have hclosed : ∀ db, c.db = some db → db.closed = true →
      c.Read k = .error .databaseClosed ∧
        c.Sequence k start step ttl = (c, .error .databaseClosed) := by
    intro db hdb hcl
    have hr : c.Read k = .error .databaseClosed := by
      unfold fileConnect.Read
      rw [hdb]
      simp [DB.View, hcl]
    refine ⟨hr, ?_⟩
    unfold fileConnect.Sequence fileConnect.Write
    cases c with
    | mk setting cdb =>
      simp only at hdb
      subst hdb
      simp [DB.Update, hcl, EncodeToString_eq_empty, formatInt_ne_nil]
  have hnil : c.db = none →
      c.Read k = .error .invalidCacheConnection ∧
        c.Sequence k start step ttl = (c, .error .invalidCacheConnection) := by
    intro hdb
    have hr : c.Read k = .error .invalidCacheConnection := by
      unfold fileConnect.Read
      rw [hdb]
    refine ⟨hr, ?_⟩
    unfold fileConnect.Sequence fileConnect.Write
    rw [hdb]
  refine ⟨fun e he => ⟨?_, ?_⟩, ?_⟩
  · rintro ⟨db, hdb, hcl⟩
    have h1 := Sequence_opened c db hdb hcl k start step ttl start (by rw [he])
    rw [h1]
    exact ⟨rfl, Read_after_Set_ttl c db hcl k _ ttl⟩
  · intro hno
    cases hdb : c.db with
    | none =>
      obtain ⟨hr, hs⟩ := hnil hdb
      rw [hr] at he
      cases he
      exact hs
    | some db =>
      cases hcl : db.closed with
      | false => exact absurd ⟨db, hdb, hcl⟩ hno
      | true =>
        obtain ⟨hr, hs⟩ := hclosed db hdb hcl
        rw [hr] at he
        cases he
        exact hs
  · intro e he
    cases hdb : c.db with
    | none => rw [(hnil hdb).2]
    | some db =>
      cases hcl : db.closed with
      | true => rw [(hclosed db hdb hcl).2]
      | false =>
        rw [Sequence_opened c db hdb hcl k start step ttl _ rfl] at he
        cases he

theorem Sequence_failure_witness :
    (connOf [⟨"k", "!", none⟩]).Read "k" = .error .corruptInput ∧
      (connOf [⟨"k", "!", none⟩]).Opened ∧
      ((connOf [⟨"k", "!", none⟩]).Sequence "k" 10 5 0).2 = .ok (wrap64 (10 + 5)) ∧
      ((connOf [⟨"k", "!", none⟩]).Sequence "k" 10 5 0).1.Read "k" =
        .ok (some (formatInt (wrap64 (10 + 5)))) :=
  ⟨by decide, ⟨_, rfl, rfl⟩,
    ((Sequence_failure (connOf [⟨"k", "!", none⟩]) "k" 10 5 0).1 .corruptInput (by decide)).1
      ⟨_, rfl, rfl⟩⟩

theorem ops_unopened (c : fileConnect) (hdb : c.db = none) (k pfx : String) (v : List Byte)
    (start step ttl : Int) :
    c.Read k = .error .invalidCacheConnection ∧
      c.Write k v ttl = (c, some .invalidCacheConnection) ∧
      c.Exists k = .error .invalidCacheConnection ∧
      c.Delete k = (c, some .invalidCacheConnection) ∧
      c.Sequence k start step ttl = (c, .error .invalidCacheConnection) ∧
      c.Keys pfx = .error .connectFailed ∧
      c.Clear pfx = (c, some .connectFailed) := by
  have hw : ∀ data, c.Write k data ttl = (c, some .invalidCacheConnection) := by
    intro data
    unfold fileConnect.Write
    rw [hdb]
  refine ⟨?_, hw v, ?_, ?_, ?_, ?_, ?_⟩
  · unfold fileConnect.Read
    rw [hdb]
  · unfold fileConnect.Exists
    rw [hdb]
  · unfold fileConnect.Delete
    rw [hdb]
  · unfold fileConnect.Sequence
    simp only [hw]
  · unfold fileConnect.Keys
    rw [hdb]
  · unfold fileConnect.Clear
    rw [hdb]

theorem ops_closed (c : fileConnect) (db : DB) (hdb : c.db = some db) (hcl : db.closed = true)
    (k pfx : String) (v : List Byte) (start step ttl : Int) :
    (c.Write k v ttl).1 = c ∧ (c.Delete k).1 = c ∧ (c.Sequence k start step ttl).1 = c ∧
      (c.Clear pfx).1 = c := by
  cases c with
  | mk setting cdb =>
    simp only at hdb
    subst hdb
    have hw : ∀ data, (fileConnect.Write ⟨setting, some db⟩ k data ttl).1 = ⟨setting, some db⟩ := by
      intro data
      unfold fileConnect.Write
      simp only [DB.Update, hcl, if_true]
      split <;> rfl
    refine ⟨hw v, ?_, ?_, ?_⟩
    · unfold fileConnect.Delete
      simp [DB.Update, hcl]
    · have := hw (formatInt (wrap64 ((match fileConnect.Read ⟨setting, some db⟩ k with
        | .ok data =>
          match ParseInt (bytesOf data) with
          | some num => num
          | none => start
        | .error _ => start) + step)))
      unfold fileConnect.Sequence
      simp only
      split
      · rename_i h
        rw [h] at this
        exact this
      · rename_i h
        rw [h] at this
        exact this
    · unfold fileConnect.Clear fileConnect.Keys
      simp [DB.View, hcl]

theorem results_closed (c : fileConnect) (db : DB) (hdb : c.db = some db)
    (hcl : db.closed = true) (k pfx : String) (v : List Byte) (start step ttl : Int) :
    c.Read k = .error .databaseClosed ∧
      (c.Write k v ttl).2 = some (if v = [] then .emptyData else .databaseClosed) ∧
      (c.Delete k).2 = some .databaseClosed ∧
      (c.Sequence k start step ttl).2 = .error .databaseClosed ∧
      c.Keys pfx = .error .databaseClosed ∧
      (c.Clear pfx).2 = some .databaseClosed := by
  have hw : ∀ data : List Byte, data ≠ [] →
      c.Write k data ttl = ({ c with db := some db }, some .databaseClosed) := by
    intro data hne
    unfold fileConnect.Write
    rw [hdb]
    simp only
    rw [if_neg (fun h => hne ((EncodeToString_eq_empty data).1 h))]
    simp [DB.Update, hcl]
  refine ⟨?_, ?_, ?_, ?_, ?_, ?_⟩
  · unfold fileConnect.Read
    rw [hdb]
    simp [DB.View, hcl]
  · by_cases hv : v = []
    · subst hv
      unfold fileConnect.Write
      rw [hdb]
      simp [(EncodeToString_eq_empty []).2 rfl]
    · rw [hw v hv, if_neg hv]
  · unfold fileConnect.Delete
    rw [hdb]
    simp [DB.Update, hcl]
  · unfold fileConnect.Sequence
    simp only
    rw [hw _ (formatInt_ne_nil _)]
  · unfold fileConnect.Keys
    rw [hdb]
    simp [DB.View, hcl]
  · unfold fileConnect.Clear fileConnect.Keys
    rw [hdb]
    simp [DB.View, hcl]

theorem Close_opened (c0 : fileConnect) (h : c0.Opened) :
    ∃ db, c0.Close.1.db = some db ∧ db.closed = true := by
  obtain ⟨db, hdb, hcl⟩ := h
  refine ⟨⟨db.keys, true, db.now⟩, ?_, rfl⟩
  unfold fileConnect.Close
  rw [hdb]
  simp [DB.Close, hcl]

/-- C10, as stated, fails: on a connector that was never opened `Keys` and `Clear` fail with
another error than `errInvalidCacheConnection`; and after `Close` the handle is still set, so
`Read` fails with the engine's `ErrDatabaseClosed` and `Exists` returns false with no error. -/
theorem unopened_guard_differs :
    (⟨⟨"store/cache.db"⟩, none⟩ : fileConnect).Keys "" = .error .connectFailed ∧
      ((⟨⟨"store/cache.db"⟩, none⟩ : fileConnect).Clear "").2 = some .connectFailed ∧
      Err.connectFailed ≠ Err.invalidCacheConnection ∧
      (connOf []).Close.1.Read "k" = .error .databaseClosed ∧
      Err.databaseClosed ≠ Err.invalidCacheConnection ∧
      (connOf []).Close.1.Exists "k" = .ok false := by
  decide

/-- C10, amended: on a connector that was never opened, `Read`, `Write`, `Exists`, `Delete` and
`Sequence` fail with `errInvalidCacheConnection` while `Keys` and `Clear` fail with the other
error built in place. On a connector that was opened and then closed with `Close`, `Read`,
`Write`, `Delete`, `Sequence`, `Keys` and `Clear` fail with the engine's `ErrDatabaseClosed`
(`Write` of the empty value with `errEmptyData`, which it checks first). In both cases no
operation changes the connector or its store. -/
theorem unopened_guard (c : fileConnect) (k pfx : String) (v : List Byte) (start step ttl : Int)
    (h : c.db = none ∨ ∃ c0 : fileConnect, c0.Opened ∧ c = c0.Close.1) :
    ((c.Write k v ttl).1 = c ∧ (c.Delete k).1 = c ∧ (c.Sequence k start step ttl).1 = c ∧
      (c.Clear pfx).1 = c) ∧
    (c.db = none →
      c.Read k = .error .invalidCacheConnection ∧
      (c.Write k v ttl).2 = some .invalidCacheConnection ∧
      c.Exists k = .error .invalidCacheConnection ∧
      (c.Delete k).2 = some .invalidCacheConnection ∧
      (c.Sequence k start step ttl).2 = .error .invalidCacheConnection ∧
      c.Keys pfx = .error .connectFailed ∧
      (c.Clear pfx).2 = some .connectFailed) ∧
    ((∃ c0 : fileConnect, c0.Opened ∧ c = c0.Close.1) →
      c.Read k = .error .databaseClosed ∧
      (c.Write k v ttl).2 = some (if v = [] then .emptyData else .databaseClosed) ∧
      (c.Delete k).2 = some .databaseClosed ∧
      (c.Sequence k start step ttl).2 = .error .databaseClosed ∧
      c.Keys pfx = .error .databaseClosed ∧
      (c.Clear pfx).2 = some .databaseClosed) := by
  refine ⟨?_, ?_, ?_⟩
  · rcases h with h | ⟨c0, hc0, rfl⟩
    · obtain ⟨-, h2, -, h4, h5, -, h7⟩ := ops_unopened c h k pfx v start step ttl
      rw [h2, h4, h5, h7]
      exact ⟨rfl, rfl, rfl, rfl⟩
    · obtain ⟨db, hdb, hcl⟩ := Close_opened c0 hc0
      exact ops_closed _ db hdb hcl k pfx v start step ttl
  · intro hdb
    obtain ⟨h1, h2, h3, h4, h5, h6, h7⟩ := ops_unopened c hdb k pfx v start step ttl
    rw [h2, h4, h5, h7]
    exact ⟨h1, rfl, h3, rfl, rfl, h6, rfl⟩
  · rintro ⟨c0, hc0, rfl⟩
    obtain ⟨db, hdb, hcl⟩ := Close_opened c0 hc0
    exact results_closed _ db hdb hcl k pfx v start step ttl

theorem unopened_guard_witness :
    (((connOf [⟨"k", "aGk=", none⟩]).Close.1.Write "k" [120] 0).1 =
        (connOf [⟨"k", "aGk=", none⟩]).Close.1 ∧
      ((connOf [⟨"k", "aGk=", none⟩]).Close.1.Delete "k").1 =
        (connOf [⟨"k", "aGk=", none⟩]).Close.1 ∧
      ((connOf [⟨"k", "aGk=", none⟩]).Close.1.Sequence "k" 10 5 0).1 =
        (connOf [⟨"k", "aGk=", none⟩]).Close.1 ∧
      ((connOf [⟨"k", "aGk=", none⟩]).Close.1.Clear "").1 =
        (connOf [⟨"k", "aGk=", none⟩]).Close.1) ∧
    ((⟨⟨"store/cache.db"⟩, none⟩ : fileConnect).db = none ∧
      (⟨⟨"store/cache.db"⟩, none⟩ : fileConnect).Read "k" = .error .invalidCacheConnection ∧
      (⟨⟨"store/cache.db"⟩, none⟩ : fileConnect).Keys "" = .error .connectFailed) ∧
    ((connOf [⟨"k", "aGk=", none⟩]).Opened ∧
      (connOf [⟨"k", "aGk=", none⟩]).Close.1.Read "k" = .error .databaseClosed ∧
      (connOf [⟨"k", "aGk=", none⟩]).Close.1.Keys "" = .error .databaseClosed) :=
  ⟨(unopened_guard (connOf [⟨"k", "aGk=", none⟩]).Close.1 "k" "" [120] 10 5 0
      (Or.inr ⟨connOf [⟨"k", "aGk=", none⟩], ⟨_, rfl, rfl⟩, rfl⟩)).1,
    ⟨rfl,
      ((unopened_guard ⟨⟨"store/cache.db"⟩, none⟩ "k" "" [120] 10 5 0 (Or.inl rfl)).2.1 rfl).1,
      ((unopened_guard ⟨⟨"store/cache.db"⟩, none⟩ "k" "" [120] 10 5 0
        (Or.inl rfl)).2.1 rfl).2.2.2.2.2.1⟩,
    ⟨⟨_, rfl, rfl⟩,
      ((unopened_guard (connOf [⟨"k", "aGk=", none⟩]).Close.1 "k" "" [120] 10 5 0
        (Or.inr ⟨connOf [⟨"k", "aGk=", none⟩], ⟨_, rfl, rfl⟩, rfl⟩)).2.2
          ⟨connOf [⟨"k", "aGk=", none⟩], ⟨_, rfl, rfl⟩, rfl⟩).1,
      ((unopened_guard (connOf [⟨"k", "aGk=", none⟩]).Close.1 "k" "" [120] 10 5 0
        (Or.inr ⟨connOf [⟨"k", "aGk=", none⟩], ⟨_, rfl, rfl⟩, rfl⟩)).2.2
          ⟨connOf [⟨"k", "aGk=", none⟩], ⟨_, rfl, rfl⟩, rfl⟩).2.2.2.2.1⟩⟩

end CacheFile
